import Mathlib

/-!
Verification of the mean-shift algorithmic layer declared in `ms/mean_shift.h`.

The header is a declaration-only surface: the algorithm bodies, and the external
collaborators it names (`DataMatrix`, `Kernel`/`KernelConfig`, `Spatial`, `Balls`,
`PhiloxRNG`), are not part of the given sources.  Every operation below is
therefore modelled from the description the specification gives of it.  Modelling
conventions, used uniformly:

* feature vectors live in `Fin n → ℚ`; the `float` arithmetic of the C code is
  idealised as exact rational arithmetic;
* distances are carried squared everywhere (a kernel "value at distance" becomes
  a value at squared distance, a radius becomes a squared-radius threshold), so
  no square roots are needed; the comparisons `dist < eps` of the algorithms
  become `sqDist < eps ^ 2`, which is equivalent for nonnegative bounds;
* transcendental ingredients that belong to the external collaborators (the
  kernel profile, the Gaussian of the manifold projector, the symmetric
  eigensolver, the C library logarithm used by the diagnostics, the Philox round
  function) are taken as explicit parameters or stand-ins, constrained only by
  the contracts the spec states for them.
-/

namespace MeanShift

/-- A feature vector in the transformed (scaled) coordinate space: `n` rational
coordinates. -/
abbrev FV (n : ℕ) := Fin n → ℚ

/-- Squared Euclidean distance between two feature vectors. -/
def sqDist {n : ℕ} (a b : FV n) : ℚ := ∑ i, (a i - b i) ^ 2

/-- Squared Euclidean norm of a feature vector (used as a step magnitude). -/
def sqNorm {n : ℕ} (v : FV n) : ℚ := ∑ i, v i ^ 2

/-- One weighted exemplar of the exemplar store: a position in transformed
space plus its weight (the default weight per the spec is 1, and an "ignore" column
may override it — the model carries the effective weight directly). -/
structure Exemplar (n : ℕ) where
  pos : FV n
  weight : ℚ

/-- Modelled from the spec: the external spatial index ("Spatial", `spatial.h`,
absent from the sources).  It indexes the exemplar store and supports range
queries `(center, radius) → exemplars within radius`.  The model keeps the
exemplar list and answers range queries by filtering on squared distance. -/
structure Spatial (n : ℕ) where
  exemplars : List (Exemplar n)

/-- Range query of the spatial index: all exemplars within squared distance
`r2` of the centre `c`. -/
def rangeQuery {n : ℕ} (s : Spatial n) (c : FV n) (r2 : ℚ) : List (Exemplar n) :=
  s.exemplars.filter (fun e => decide (sqDist e.pos c ≤ r2))

/-- Modelled from the spec: the external kernel family ("Kernel" with its
"KernelConfig", `kernels.h`, absent from the sources).  `value` is the kernel
profile evaluated at a squared distance; `range` maps the 0–1 quality parameter
to the squared search radius used by range queries. -/
structure Kernel where
  value : ℚ → ℚ
  range : ℚ → ℚ

/-- Modelled from the spec: `prob` — the kernel density estimate at `fv`: `norm`
times the sum, over the exemplars found within the quality-derived search
radius, of kernel value at distance times exemplar weight. -/
def prob {n : ℕ} (spatial : Spatial n) (kernel : Kernel) (fv : FV n)
    (norm quality : ℚ) : ℚ :=
  norm * ((rangeQuery spatial fv (kernel.range quality)).map
    (fun e => kernel.value (sqDist e.pos fv) * e.weight)).sum

/-- Modelled from the spec: one adaptive mean-shift iteration — the
kernel-weighted centroid (the `temp` of `mode`) of the exemplars within the
quality-derived search radius of `fv`.  When the total kernel weight in range
is zero the centroid is undefined and the point is left in place. -/
def meanShiftStep {n : ℕ} (spatial : Spatial n) (kernel : Kernel) (fv : FV n)
    (quality : ℚ) : FV n :=
  let found := rangeQuery spatial fv (kernel.range quality)
  let wsum := (found.map (fun e => kernel.value (sqDist e.pos fv) * e.weight)).sum
  if wsum = 0 then fv
  else fun i =>
    ((found.map (fun e => kernel.value (sqDist e.pos fv) * e.weight * e.pos i)).sum) / wsum

/-- Modelled from the spec: the iteration loop of `mode`, with explicit fuel.
Each pass computes the centroid `temp`; if the step `temp - fv` has magnitude
below `epsilon` the walk has converged and stops, otherwise `fv` becomes `temp`
and the loop repeats, bounded by the fuel (`iter_cap`).  Returns the final
point together with the number of loop iterations executed. -/
def modeGo {n : ℕ} (spatial : Spatial n) (kernel : Kernel)
    (quality epsilon : ℚ) : ℕ → FV n → FV n × ℕ
  | 0, fv => (fv, 0)
  | fuel + 1, fv =>
    let temp := meanShiftStep spatial kernel fv quality
    if sqDist temp fv < epsilon ^ 2 then (fv, 1)
    else
      ((modeGo spatial kernel quality epsilon fuel temp).1,
       (modeGo spatial kernel quality epsilon fuel temp).2 + 1)

/-- Modelled from the spec: `mode` — mean-shift convergence of one feature
vector, as `modeGo` driven with `iter_cap` fuel.  The first component is the
converged point (the in-place update of `fv`), the second the number of
iterations performed. -/
def mode {n : ℕ} (spatial : Spatial n) (kernel : Kernel) (fv : FV n)
    (quality epsilon : ℚ) (iter_cap : ℕ) : FV n × ℕ :=
  modeGo spatial kernel quality epsilon iter_cap fv

theorem modeGo_iters_le {n : ℕ} (spatial : Spatial n) (kernel : Kernel)
    (quality epsilon : ℚ) :
    ∀ (fuel : ℕ) (fv : FV n),
      (modeGo spatial kernel quality epsilon fuel fv).2 ≤ fuel := by
  intro fuel
  induction fuel with
  | zero => intro fv; simp [modeGo]
  | succ k ih =>
    intro fv
    simp only [modeGo]
    split
    · simp
    · simpa using Nat.succ_le_succ (ih _)

/-- Modelled from the spec: one cluster representative of the external "Balls"
collection (`balls.h`, absent from the sources): a centre and a radius. -/
structure Ball (n : ℕ) where
  center : FV n
  radius : ℚ

/-- Modelled from the spec: the external cluster-representative set ("Balls"):
a growable, append-only list of representatives; the index of a representative is
its position, and indices are never reused or reordered — insertion appends. -/
abbrev Balls (n : ℕ) := List (Ball n)

/-- Index of the first representative whose centre lies within squared distance
`r2` of the point `p` (the merge test of `mode_merge`, `r2 = merge_range ^ 2`). -/
def firstWithin {n : ℕ} (p : FV n) (r2 : ℚ) : Balls n → Option ℕ
  | [] => none
  | b :: rest =>
    if sqDist p b.center ≤ r2 then some 0
    else (firstWithin p r2 rest).map (· + 1)

/-- Index of the first representative whose ball contains the point `p`,
i.e. whose centre is within the radius of that very ball from `p` (the containment
query of `assign_cluster`). -/
def firstContaining {n : ℕ} (p : FV n) : Balls n → Option ℕ
  | [] => none
  | b :: rest =>
    if sqDist p b.center ≤ b.radius ^ 2 then some 0
    else (firstContaining p rest).map (· + 1)

/-- Insertion into the representative set: appends and returns the new
(stable) index of the new representative. -/
def insertBall {n : ℕ} (balls : Balls n) (c : FV n) (r : ℚ) : ℕ × Balls n :=
  (balls.length, balls ++ [⟨c, r⟩])

/-- Result of a `mode_merge` (or `assign_cluster`) call in the state-passing
model: the returned index, the final feature vector (the in-place `fv`), the
representative set after the call, and the iterations performed. -/
structure MergeRes (n : ℕ) where
  index : ℤ
  fv : FV n
  balls : Balls n
  iters : ℕ

/-- Modelled from the spec: the iteration loop of `mode_merge`, with explicit
fuel.  `sinceCheck` counts down to the next periodic merge test: whenever it is
zero the current point is tested against every existing representative at range
`merge_range`, and a hit returns the index of that representative immediately.
Otherwise the loop iterates exactly as `mode`; on convergence by `epsilon`, or
on running out of fuel (`iter_cap`), a new representative is inserted at the
final point with radius `ident_dist` and its index is returned.  (`ident_dist`
is the radius the insertion path assigns; `cluster` supplies it.  The merge
test is deferred to every `check_step` iterations because it is costlier than
an iteration.) -/
def modeMergeGo {n : ℕ} (spatial : Spatial n) (kernel : Kernel)
    (quality epsilon merge_range ident_dist : ℚ) (check_step : ℕ) :
    ℕ → ℕ → FV n → Balls n → MergeRes n
  | 0, sinceCheck, fv, balls =>
    match (if sinceCheck = 0 then firstWithin fv (merge_range ^ 2) balls else none) with
    | some i => ⟨(i : ℤ), fv, balls, 0⟩
    | none => ⟨(balls.length : ℤ), fv, (insertBall balls fv ident_dist).2, 0⟩
  | fuel + 1, sinceCheck, fv, balls =>
    match (if sinceCheck = 0 then firstWithin fv (merge_range ^ 2) balls else none) with
    | some i => ⟨(i : ℤ), fv, balls, 0⟩
    | none =>
      let temp := meanShiftStep spatial kernel fv quality
      if sqDist temp fv < epsilon ^ 2 then
        ⟨(balls.length : ℤ), fv, (insertBall balls fv ident_dist).2, 1⟩
      else
        let r := modeMergeGo spatial kernel quality epsilon merge_range ident_dist check_step
          fuel (if sinceCheck = 0 then check_step - 1 else sinceCheck - 1) temp balls
        ⟨r.index, r.fv, r.balls, r.iters + 1⟩

/-- Modelled from the spec: `mode_merge` — the mean-shift walk of `mode` with a
periodic early-exit merge test against the representative set, inserting a new
representative when no test hits.  The first merge test happens on entry. -/
def modeMerge {n : ℕ} (spatial : Spatial n) (kernel : Kernel) (balls : Balls n)
    (fv : FV n) (quality epsilon : ℚ) (iter_cap : ℕ) (merge_range : ℚ)
    (check_step : ℕ) (ident_dist : ℚ) : MergeRes n :=
  modeMergeGo spatial kernel quality epsilon merge_range ident_dist check_step
    iter_cap 0 fv balls

theorem firstWithin_isSome_iff {n : ℕ} (p : FV n) (r2 : ℚ) :
    ∀ balls : Balls n,
      (firstWithin p r2 balls).isSome ↔ ∃ b ∈ balls, sqDist p b.center ≤ r2 := by
  intro balls
  induction balls with
  | nil => simp [firstWithin]
  | cons b rest ih =>
    by_cases h : sqDist p b.center ≤ r2
    · simp [firstWithin, h]
    · simpa [firstWithin, h, Option.isSome_map] using ih

theorem firstWithin_some {n : ℕ} (p : FV n) (r2 : ℚ) :
    ∀ (balls : Balls n) (i : ℕ), firstWithin p r2 balls = some i →
      ∃ b, balls[i]? = some b ∧ sqDist p b.center ≤ r2 := by
  intro balls
  induction balls with
  | nil => intro i h; simp [firstWithin] at h
  | cons b rest ih =>
    intro i h
    by_cases hb : sqDist p b.center ≤ r2
    · simp [firstWithin, hb] at h
      exact ⟨b, by simp [← h], hb⟩
    · simp [firstWithin, hb] at h
      obtain ⟨j, hj, rfl⟩ := h
      obtain ⟨c, hc, hcle⟩ := ih j hj
      exact ⟨c, by simpa using hc, hcle⟩

theorem firstContaining_isSome_iff {n : ℕ} (p : FV n) :
    ∀ balls : Balls n,
      (firstContaining p balls).isSome ↔
        ∃ b ∈ balls, sqDist p b.center ≤ b.radius ^ 2 := by
  intro balls
  induction balls with
  | nil => simp [firstContaining]
  | cons b rest ih =>
    by_cases h : sqDist p b.center ≤ b.radius ^ 2
    · simp [firstContaining, h]
    · simpa [firstContaining, h, Option.isSome_map] using ih

theorem firstContaining_some {n : ℕ} (p : FV n) :
    ∀ (balls : Balls n) (i : ℕ), firstContaining p balls = some i →
      ∃ b, balls[i]? = some b ∧ sqDist p b.center ≤ b.radius ^ 2 := by
  intro balls
  induction balls with
  | nil => intro i h; simp [firstContaining] at h
  | cons b rest ih =>
    intro i h
    by_cases hb : sqDist p b.center ≤ b.radius ^ 2
    · simp [firstContaining, hb] at h
      exact ⟨b, by simp [← h], hb⟩
    · simp [firstContaining, hb] at h
      obtain ⟨j, hj, rfl⟩ := h
      obtain ⟨c, hc, hcle⟩ := ih j hj
      exact ⟨c, by simpa using hc, hcle⟩

theorem modeMergeGo_iters_le {n : ℕ} (spatial : Spatial n) (kernel : Kernel)
    (quality epsilon merge_range ident_dist : ℚ) (check_step : ℕ) :
    ∀ (fuel sinceCheck : ℕ) (fv : FV n) (balls : Balls n),
      (modeMergeGo spatial kernel quality epsilon merge_range ident_dist check_step
        fuel sinceCheck fv balls).iters ≤ fuel := by
  intro fuel
  induction fuel with
  | zero =>
    intro sinceCheck fv balls
    simp only [modeMergeGo]
    split <;> simp
  | succ k ih =>
    intro sinceCheck fv balls
    simp only [modeMergeGo]
    split
    · simp
    · split
      · simp
      · simpa using Nat.succ_le_succ (ih _ _ _)

/-- The outcome dichotomy of the `mode_merge` loop: the returned index is that
of a representative already present within `merge_range` of the final point
(set unchanged), or the index of the freshly inserted representative. -/
theorem modeMergeGo_spec {n : ℕ} (spatial : Spatial n) (kernel : Kernel)
    (quality epsilon merge_range ident_dist : ℚ) (check_step : ℕ) :
    ∀ (fuel sinceCheck : ℕ) (fv : FV n) (balls : Balls n),
      (modeMergeGo spatial kernel quality epsilon merge_range ident_dist check_step
          fuel sinceCheck fv balls).balls = balls ∧
        (∃ i : ℕ, (modeMergeGo spatial kernel quality epsilon merge_range ident_dist check_step
              fuel sinceCheck fv balls).index = (i : ℤ) ∧
          ∃ b, balls[i]? = some b ∧
            sqDist (modeMergeGo spatial kernel quality epsilon merge_range ident_dist check_step
              fuel sinceCheck fv balls).fv b.center ≤ merge_range ^ 2) ∨
      (modeMergeGo spatial kernel quality epsilon merge_range ident_dist check_step
          fuel sinceCheck fv balls).index = (balls.length : ℤ) ∧
        (modeMergeGo spatial kernel quality epsilon merge_range ident_dist check_step
            fuel sinceCheck fv balls).balls =
          balls ++ [⟨(modeMergeGo spatial kernel quality epsilon merge_range ident_dist check_step
            fuel sinceCheck fv balls).fv, ident_dist⟩] := by
  intro fuel
  induction fuel with
  | zero =>
    intro sinceCheck fv balls
    simp only [modeMergeGo]
    split
    · rename_i i heq
      split at heq
      · left
        refine ⟨rfl, i, rfl, ?_⟩
        simpa using firstWithin_some fv (merge_range ^ 2) balls i heq
      · exact absurd heq (by simp)
    · right; exact ⟨rfl, rfl⟩
  | succ k ih =>
    intro sinceCheck fv balls
    simp only [modeMergeGo]
    split
    · rename_i i heq
      split at heq
      · left
        refine ⟨rfl, i, rfl, ?_⟩
        simpa using firstWithin_some fv (merge_range ^ 2) balls i heq
      · exact absurd heq (by simp)
    · split
      · right; exact ⟨rfl, rfl⟩
      · exact ih _ _ _

/-- Modelled from the spec: the loop of `cluster` — applies `mode_merge` to the
exemplars in order, each walk starting at the position of the exemplar, collecting
the returned representative indices (the `out` array) and threading the
representative set through. -/
def clusterGo {n : ℕ} (spatial : Spatial n) (kernel : Kernel)
    (quality epsilon merge_range ident_dist : ℚ) (iter_cap check_step : ℕ) :
    List (Exemplar n) → Balls n → List ℤ × Balls n
  | [], balls => ([], balls)
  | e :: rest, balls =>
    let r := modeMerge spatial kernel balls e.pos quality epsilon iter_cap
      merge_range check_step ident_dist
    let t := clusterGo spatial kernel quality epsilon merge_range ident_dist
      iter_cap check_step rest r.balls
    (r.index :: t.1, t.2)

/-- Modelled from the spec: `cluster` — runs the Mode Merger over every
exemplar indexed by `spatial`, producing the parallel output array of
representative indices and the final representative set. -/
def cluster {n : ℕ} (spatial : Spatial n) (kernel : Kernel) (balls : Balls n)
    (quality epsilon : ℚ) (iter_cap : ℕ) (ident_dist merge_range : ℚ)
    (check_step : ℕ) : List ℤ × Balls n :=
  clusterGo spatial kernel quality epsilon merge_range ident_dist iter_cap
    check_step spatial.exemplars balls

theorem modeMerge_balls_cases {n : ℕ} (spatial : Spatial n) (kernel : Kernel)
    (balls : Balls n) (fv : FV n) (quality epsilon : ℚ) (iter_cap : ℕ)
    (merge_range : ℚ) (check_step : ℕ) (ident_dist : ℚ) :
    (modeMerge spatial kernel balls fv quality epsilon iter_cap merge_range
        check_step ident_dist).balls = balls ∨
      (modeMerge spatial kernel balls fv quality epsilon iter_cap merge_range
          check_step ident_dist).balls =
        balls ++ [⟨(modeMerge spatial kernel balls fv quality epsilon iter_cap
          merge_range check_step ident_dist).fv, ident_dist⟩] := by
  rcases modeMergeGo_spec spatial kernel quality epsilon merge_range ident_dist
      check_step iter_cap 0 fv balls with ⟨h, _⟩ | ⟨_, h⟩
  · exact Or.inl h
  · exact Or.inr h

theorem modeMerge_index_lt {n : ℕ} (spatial : Spatial n) (kernel : Kernel)
    (balls : Balls n) (fv : FV n) (quality epsilon : ℚ) (iter_cap : ℕ)
    (merge_range : ℚ) (check_step : ℕ) (ident_dist : ℚ) :
    0 ≤ (modeMerge spatial kernel balls fv quality epsilon iter_cap merge_range
        check_step ident_dist).index ∧
      (modeMerge spatial kernel balls fv quality epsilon iter_cap merge_range
        check_step ident_dist).index <
      ((modeMerge spatial kernel balls fv quality epsilon iter_cap merge_range
        check_step ident_dist).balls.length : ℤ) := by
  simp only [modeMerge]
  rcases modeMergeGo_spec spatial kernel quality epsilon merge_range ident_dist
      check_step iter_cap 0 fv balls with ⟨hb, i, hi, b, hget, _⟩ | ⟨hi, hb⟩
  · have hlt : i < balls.length := by
      by_contra hge
      rw [List.getElem?_eq_none (by omega)] at hget
      exact Option.noConfusion hget
    constructor
    · rw [hi]; exact_mod_cast Int.ofNat_nonneg i
    · rw [hi, hb]; exact_mod_cast hlt
  · constructor
    · rw [hi]; exact_mod_cast Int.ofNat_nonneg _
    · rw [hi, hb]; simp

theorem clusterGo_balls_extends {n : ℕ} (spatial : Spatial n) (kernel : Kernel)
    (quality epsilon merge_range ident_dist : ℚ) (iter_cap check_step : ℕ) :
    ∀ (exs : List (Exemplar n)) (balls : Balls n),
      ∃ ext, (clusterGo spatial kernel quality epsilon merge_range ident_dist
        iter_cap check_step exs balls).2 = balls ++ ext := by
  intro exs
  induction exs with
  | nil => intro balls; exact ⟨[], by simp [clusterGo]⟩
  | cons e rest ih =>
    intro balls
    simp only [clusterGo]
    rcases modeMerge_balls_cases spatial kernel balls e.pos quality epsilon
        iter_cap merge_range check_step ident_dist with h | h
    · obtain ⟨ext, hext⟩ := ih (modeMerge spatial kernel balls e.pos quality epsilon
        iter_cap merge_range check_step ident_dist).balls
      exact ⟨ext, by rw [hext, h]⟩
    · obtain ⟨ext, hext⟩ := ih (modeMerge spatial kernel balls e.pos quality epsilon
        iter_cap merge_range check_step ident_dist).balls
      refine ⟨[⟨(modeMerge spatial kernel balls e.pos quality epsilon iter_cap
        merge_range check_step ident_dist).fv, ident_dist⟩] ++ ext, ?_⟩
      rw [hext, h, List.append_assoc]

theorem clusterGo_out_length {n : ℕ} (spatial : Spatial n) (kernel : Kernel)
    (quality epsilon merge_range ident_dist : ℚ) (iter_cap check_step : ℕ) :
    ∀ (exs : List (Exemplar n)) (balls : Balls n),
      (clusterGo spatial kernel quality epsilon merge_range ident_dist
        iter_cap check_step exs balls).1.length = exs.length := by
  intro exs
  induction exs with
  | nil => intro balls; simp [clusterGo]
  | cons e rest ih => intro balls; simp [clusterGo, ih]

theorem clusterGo_balls_le {n : ℕ} (spatial : Spatial n) (kernel : Kernel)
    (quality epsilon merge_range ident_dist : ℚ) (iter_cap check_step : ℕ) :
    ∀ (exs : List (Exemplar n)) (balls : Balls n),
      (clusterGo spatial kernel quality epsilon merge_range ident_dist
        iter_cap check_step exs balls).2.length ≤ balls.length + exs.length := by
  intro exs
  induction exs with
  | nil => intro balls; simp [clusterGo]
  | cons e rest ih =>
    intro balls
    simp only [clusterGo]
    rcases modeMerge_balls_cases spatial kernel balls e.pos quality epsilon
        iter_cap merge_range check_step ident_dist with h | h
    · rw [h]
      have hmono := ih balls
      simp only [List.length_cons]
      omega
    · rw [h]
      have hmono := ih (balls ++ [⟨(modeMerge spatial kernel balls e.pos quality
        epsilon iter_cap merge_range check_step ident_dist).fv, ident_dist⟩])
      simp only [List.length_append, List.length_cons, List.length_nil] at hmono ⊢
      omega

theorem clusterGo_out_valid {n : ℕ} (spatial : Spatial n) (kernel : Kernel)
    (quality epsilon merge_range ident_dist : ℚ) (iter_cap check_step : ℕ) :
    ∀ (exs : List (Exemplar n)) (balls : Balls n),
      ∀ j ∈ (clusterGo spatial kernel quality epsilon merge_range ident_dist
          iter_cap check_step exs balls).1,
        0 ≤ j ∧ j < ((clusterGo spatial kernel quality epsilon merge_range ident_dist
          iter_cap check_step exs balls).2.length : ℤ) := by
  intro exs
  induction exs with
  | nil => intro balls j hj; simp [clusterGo] at hj
  | cons e rest ih =>
    intro balls j hj
    simp only [clusterGo, List.mem_cons] at hj ⊢
    rcases hj with rfl | hj
    · obtain ⟨h0, hlt⟩ := modeMerge_index_lt spatial kernel balls e.pos quality
        epsilon iter_cap merge_range check_step ident_dist
      refine ⟨h0, lt_of_lt_of_le hlt ?_⟩
      obtain ⟨ext, hext⟩ := clusterGo_balls_extends spatial kernel quality epsilon
        merge_range ident_dist iter_cap check_step rest
        (modeMerge spatial kernel balls e.pos quality epsilon iter_cap merge_range
          check_step ident_dist).balls
      rw [hext]; simp
    · exact ih _ j hj

/-- Modelled from the spec: `assign_cluster` — runs the Mode Finder to
convergence (never growing `balls`), then tests the final point against the
existing representatives: the index of the matching representative, or -1 when
no representative ball contains the final point.  The `check_step` parameter of
the C signature is accepted for signature fidelity; the spec describes the
walk as a plain `mode` walk followed by the containment test.  The
representative set is threaded through unchanged (read-only). -/
def assignCluster {n : ℕ} (spatial : Spatial n) (kernel : Kernel)
    (balls : Balls n) (fv : FV n) (quality epsilon : ℚ)
    (iter_cap check_step : ℕ) : MergeRes n :=
  let m := mode spatial kernel fv quality epsilon iter_cap
  match firstContaining m.1 balls with
  | some i => ⟨(i : ℤ), m.1, balls, m.2⟩
  | none => ⟨-1, m.1, balls, m.2⟩

/-- Modelled from the spec: the counter-based "PhiloxRNG" (`philox.h`, absent
from the sources) — a key and a current counter position.  The generator
itself is, per the spec, a pure function of `(key, counter)`; `philoxMix` below
is a concrete integer-mixing stand-in for the out-of-scope Philox rounds. -/
structure PhiloxRNG where
  key : ℕ
  counter : ℕ

/-- Stand-in for the Philox round function: a 32-bit mixing pure function of
the key and a counter value. -/
def philoxMix (key idx : ℕ) : ℕ :=
  (key * 2654435761 + idx * 40503 + 1) % 4294967296

/-- A deterministic uniform variate in `[0, 1)` derived from `(key, index)`. -/
def philoxUniform (key idx : ℕ) : ℚ :=
  (philoxMix key idx : ℚ) / 4294967296

/-- Weighted selection of an exemplar: walk the store subtracting weights from
the scaled uniform variate until it falls inside the weight mass of an exemplar. -/
def weightedSelect {n : ℕ} (dflt : Exemplar n) : List (Exemplar n) → ℚ → Exemplar n
  | [], _ => dflt
  | e :: rest, u => if u < e.weight then e else weightedSelect dflt rest (u - e.weight)

/-- Modelled from the spec: `draw` — a deterministic sample from the KDE.  A
weighted draw seeded by `(rng key, index)` selects an exemplar, which is then
perturbed by an offset obtained from the inverse-sampling function of the kernel
(`ksample`, a parameter standing for the out-of-scope kernel-specific inverse
sampler) applied to the next pseudorandom word.  The result is the `out`
vector; only `rng.key` and `index` feed the computation, never the mutable
counter position. -/
def draw {n : ℕ} (dm : List (Exemplar n)) (ksample : ℕ → FV n)
    (rng : PhiloxRNG) (index : ℕ) : FV n :=
  let u := philoxUniform rng.key index * (dm.map (fun e => e.weight)).sum
  let e := weightedSelect ⟨fun _ => 0, 0⟩ dm u
  fun i => e.pos i + ksample (philoxMix rng.key (index + 1)) i

/-- Modelled from the spec: the shared subsampling policy of the diagnostics —
when `sample_clamp` is positive and below the exemplar count, that many
exemplar indices drawn with replacement through the RNG; otherwise every
index. -/
def subsampleIdx (count sample_clamp : ℕ) (rng : PhiloxRNG) : List ℕ :=
  if 0 < sample_clamp ∧ sample_clamp < count then
    (List.range sample_clamp).map (fun j => philoxMix rng.key j % count)
  else List.range count

/-- Modelled from the spec: `kl_divergence` — the average, over the evaluated
exemplars of P, of `log (prob_P x / max (prob_Q x) limit)`, surfaced to the caller
unmodified.  `lg` is a parameter standing for the C library logarithm, which
is external to the sources. -/
def kl_divergence {n : ℕ} (lg : ℚ → ℚ) (spatial_p : Spatial n)
    (kernel_p : Kernel) (norm_p quality_p : ℚ) (spatial_q : Spatial n)
    (kernel_q : Kernel) (norm_q quality_q : ℚ) (limit : ℚ)
    (sample_clamp : ℕ) (rng : PhiloxRNG) : ℚ :=
  let idxs := subsampleIdx spatial_p.exemplars.length sample_clamp rng
  let pts := idxs.filterMap (fun i => (spatial_p.exemplars[i]?).map (fun e => e.pos))
  (pts.map (fun x =>
    lg (prob spatial_p kernel_p x norm_p quality_p /
      max (prob spatial_q kernel_q x norm_q quality_q) limit))).sum / (pts.length : ℚ)

/-- The mean-shift update vector at `fv`: the step `temp - fv` of one
iteration.  For the Gaussian kernel this is the KDE gradient rescaled by the
(positive) local density, so it is the ascent direction the manifold projector
feeds into its subspace projection. -/
def msVec {n : ℕ} (spatial : Spatial n) (kernel : Kernel) (fv : FV n)
    (quality : ℚ) : FV n :=
  fun i => meanShiftStep spatial kernel fv quality i - fv i

/-- Modelled from the spec: the KDE Hessian at `fv` for the unit isotropic
Gaussian profile (`gauss.value`), assembled from the exemplars in range:
`Σ wᵢ k(dᵢ) ((xᵢ - x)(xᵢ - x)ᵀ - I)`. -/
def kdeHessian {n : ℕ} (spatial : Spatial n) (gauss : Kernel) (fv : FV n)
    (quality : ℚ) : Matrix (Fin n) (Fin n) ℚ :=
  Matrix.of fun a b =>
    ((rangeQuery spatial fv (gauss.range quality)).map
      (fun e => gauss.value (sqDist e.pos fv) * e.weight *
        ((e.pos a - fv a) * (e.pos b - fv b) - (if a = b then 1 else 0)))).sum

/-- The `dims - degrees` eigenvector indices with the most-negative
eigenvalues, selected with the deterministic tie-breaking of the spec (by
eigenvalue, then by index). -/
def selDirs {n : ℕ} (vals : Fin n → ℚ) (degrees : ℕ) : List (Fin n) :=
  (List.insertionSort
    (fun i j => vals i < vals j ∨ (vals i = vals j ∧ i ≤ j))
    (List.finRange n)).take (n - degrees)

/-- The projection matrix onto the span of the selected eigenvector columns of
`vecs`: `Σ_{j selected} (col j) (col j)ᵀ`. -/
def scmsProj {n : ℕ} (vals : Fin n → ℚ) (vecs : Matrix (Fin n) (Fin n) ℚ)
    (degrees : ℕ) : Matrix (Fin n) (Fin n) ℚ :=
  Matrix.of fun a b => ((selDirs vals degrees).map (fun j => vecs a j * vecs b j)).sum

/-- Modelled from the spec: the iteration loop of `manifold`, with explicit
fuel.  Each pass projects the mean-shift ascent vector onto the span of the
`dims - degrees` most-negative-eigenvalue eigenvectors of the KDE Hessian —
recomputed each pass when `always_hessian` is set, otherwise the fixed
directions `dirs0` computed once at entry — and advances `fv` by the projected
step, stopping when the step magnitude drops below `epsilon`. -/
def manifoldGo {n : ℕ} (spatial : Spatial n) (gauss : Kernel)
    (eig : Matrix (Fin n) (Fin n) ℚ → (Fin n → ℚ) × Matrix (Fin n) (Fin n) ℚ)
    (degrees : ℕ) (quality epsilon : ℚ) (always_hessian : Bool)
    (dirs0 : Matrix (Fin n) (Fin n) ℚ) : ℕ → FV n → FV n × ℕ
  | 0, fv => (fv, 0)
  | fuel + 1, fv =>
    let P := if always_hessian then
        scmsProj (eig (kdeHessian spatial gauss fv quality)).1
          (eig (kdeHessian spatial gauss fv quality)).2 degrees
      else dirs0
    let step := P.mulVec (msVec spatial gauss fv quality)
    if sqNorm step < epsilon ^ 2 then (fv, 1)
    else
      ((manifoldGo spatial gauss eig degrees quality epsilon always_hessian dirs0
          fuel (fun i => fv i + step i)).1,
       (manifoldGo spatial gauss eig degrees quality epsilon always_hessian dirs0
          fuel (fun i => fv i + step i)).2 + 1)

/-- Modelled from the spec: `manifold` — subspace-constrained mean shift of one
feature vector onto a `degrees`-dimensional manifold.  The C code hard-wires
the unit isotropic Gaussian kernel; its transcendental profile is supplied as
the `gauss` parameter, and the out-of-scope symmetric eigensolver as `eig`
(returning eigenvalues and the orthonormal matrix of eigenvector columns).
Returns the projected point and the number of iterations performed. -/
def manifold {n : ℕ} (spatial : Spatial n) (gauss : Kernel)
    (eig : Matrix (Fin n) (Fin n) ℚ → (Fin n → ℚ) × Matrix (Fin n) (Fin n) ℚ)
    (degrees : ℕ) (fv : FV n) (quality epsilon : ℚ) (iter_cap : ℕ)
    (always_hessian : Bool) : FV n × ℕ :=
  manifoldGo spatial gauss eig degrees quality epsilon always_hessian
    (scmsProj (eig (kdeHessian spatial gauss fv quality)).1
      (eig (kdeHessian spatial gauss fv quality)).2 degrees) iter_cap fv

theorem manifoldGo_iters_le {n : ℕ} (spatial : Spatial n) (gauss : Kernel)
    (eig : Matrix (Fin n) (Fin n) ℚ → (Fin n → ℚ) × Matrix (Fin n) (Fin n) ℚ)
    (degrees : ℕ) (quality epsilon : ℚ) (always_hessian : Bool)
    (dirs0 : Matrix (Fin n) (Fin n) ℚ) :
    ∀ (fuel : ℕ) (fv : FV n),
      (manifoldGo spatial gauss eig degrees quality epsilon always_hessian dirs0
        fuel fv).2 ≤ fuel := by
  intro fuel
  induction fuel with
  | zero => intro fv; simp [manifoldGo]
  | succ k ih =>
    intro fv
    simp only [manifoldGo]
    split <;> split
    · simp
    · simpa using Nat.succ_le_succ (ih _)
    · simp
    · simpa using Nat.succ_le_succ (ih _)

/-- With `degrees = 0` every eigenvector is selected, so for an orthonormal
eigenvector matrix the projection is the identity. -/
theorem scmsProj_degrees_zero {n : ℕ} (vals : Fin n → ℚ)
    (vecs : Matrix (Fin n) (Fin n) ℚ) (h : vecs.transpose * vecs = 1) :
    scmsProj vals vecs 0 = 1 := by
  have hperm : (List.insertionSort
      (fun i j => vals i < vals j ∨ (vals i = vals j ∧ i ≤ j))
      (List.finRange n)).Perm (List.finRange n) :=
    List.perm_insertionSort _ _
  have hlen : (List.insertionSort
      (fun i j => vals i < vals j ∨ (vals i = vals j ∧ i ≤ j))
      (List.finRange n)).length = n := by
    simpa using hperm.length_eq
  have hsel : ∀ (f : Fin n → ℚ),
      ((selDirs vals 0).map f).sum = ∑ j, f j := by
    intro f
    have htake : selDirs vals 0 = List.insertionSort
        (fun i j => vals i < vals j ∨ (vals i = vals j ∧ i ≤ j))
        (List.finRange n) := by
      simp only [selDirs, Nat.sub_zero]
      exact List.take_of_length_le (le_of_eq hlen)
    rw [htake, (hperm.map f).sum_eq]
    rw [← List.ofFn_eq_map, List.sum_ofFn]
  have hmul : vecs * vecs.transpose = 1 := Matrix.mul_eq_one_comm.mpr h
  funext a b
  have := hsel (fun j => vecs a j * vecs b j)
  calc scmsProj vals vecs 0 a b
      = ((selDirs vals 0).map (fun j => vecs a j * vecs b j)).sum := rfl
    _ = ∑ j, vecs a j * vecs b j := this
    _ = (vecs * vecs.transpose) a b := by
        rw [Matrix.mul_apply]
        simp [Matrix.transpose_apply]
    _ = (1 : Matrix (Fin n) (Fin n) ℚ) a b := by rw [hmul]

theorem sqDist_step_eq_sqNorm_msVec {n : ℕ} (spatial : Spatial n)
    (kernel : Kernel) (fv : FV n) (quality : ℚ) :
    sqDist (meanShiftStep spatial kernel fv quality) fv =
      sqNorm (msVec spatial kernel fv quality) := by
  simp [sqDist, sqNorm, msVec]

theorem add_msVec_eq_step {n : ℕ} (spatial : Spatial n) (kernel : Kernel)
    (fv : FV n) (quality : ℚ) :
    (fun i => fv i + msVec spatial kernel fv quality i) =
      meanShiftStep spatial kernel fv quality := by
  funext i
  simp [msVec]

/-- With zero degrees of freedom and an orthonormal eigensolver, the projected
step of the manifold loop is exactly the mean-shift step, so the loop agrees
with the `mode` loop iteration by iteration. -/
theorem manifoldGo_degrees_zero {n : ℕ} (spatial : Spatial n) (gauss : Kernel)
    (eig : Matrix (Fin n) (Fin n) ℚ → (Fin n → ℚ) × Matrix (Fin n) (Fin n) ℚ)
    (quality epsilon : ℚ) (always_hessian : Bool)
    (dirs0 : Matrix (Fin n) (Fin n) ℚ)
    (heig : ∀ H, ((eig H).2).transpose * (eig H).2 = 1)
    (hdirs : dirs0 = 1) :
    ∀ (fuel : ℕ) (fv : FV n),
      manifoldGo spatial gauss eig 0 quality epsilon always_hessian dirs0 fuel fv =
        modeGo spatial gauss quality epsilon fuel fv := by
  intro fuel
  induction fuel with
  | zero => intro fv; simp [manifoldGo, modeGo]
  | succ k ih =>
    intro fv
    simp only [manifoldGo, modeGo]
    have hP : (if always_hessian then
        scmsProj (eig (kdeHessian spatial gauss fv quality)).1
          (eig (kdeHessian spatial gauss fv quality)).2 0
      else dirs0) = 1 := by
      cases always_hessian
      · simpa using hdirs
      · simpa using scmsProj_degrees_zero _ _ (heig (kdeHessian spatial gauss fv quality))
    rw [hP, Matrix.one_mulVec, ← sqDist_step_eq_sqNorm_msVec, add_msVec_eq_step]
    split
    · rfl
    · rw [ih]

/-- A one-dimensional exemplar store with a single unit-weight exemplar at the
origin, used as a concrete instance. -/
def spat1 : Spatial 1 := ⟨[⟨fun _ => 0, 1⟩]⟩

/-- A one-dimensional exemplar store with two unit-weight exemplars at the
origin (twice the density of `spat1`), used as a concrete instance. -/
def spat2 : Spatial 1 := ⟨[⟨fun _ => 0, 1⟩, ⟨fun _ => 0, 1⟩]⟩

/-- The flat unit kernel profile with unit search radius, a concrete kernel
instance. -/
def kern1 : Kernel := ⟨fun _ => 1, fun _ => 1⟩

/-- The origin of the one-dimensional feature space. -/
def zfv : FV 1 := fun _ => 0

/-- A concrete eigensolver instance for dimension one: the diagonal as
eigenvalues and the identity as (orthonormal) eigenvector matrix. -/
def eigId : Matrix (Fin 1) (Fin 1) ℚ → (Fin 1 → ℚ) × Matrix (Fin 1) (Fin 1) ℚ :=
  fun H => (fun i => H i i, 1)

/-- Claim C1: for every input, each convergent iteration loop — `mode`,
`mode_merge` and `manifold` — performs at most `iter_cap` iterations and then
returns, so every call terminates even when the step magnitude never drops
below `epsilon`. -/
theorem C1_every_loop_respects_iter_cap {n : ℕ} (spatial : Spatial n)
    (kernel gauss : Kernel)
    (eig : Matrix (Fin n) (Fin n) ℚ → (Fin n → ℚ) × Matrix (Fin n) (Fin n) ℚ)
    (balls : Balls n) (fv fv2 fv3 : FV n)
    (quality epsilon merge_range ident_dist : ℚ)
    (iter_cap check_step degrees : ℕ) (always_hessian : Bool) :
    (mode spatial kernel fv quality epsilon iter_cap).2 ≤ iter_cap ∧
      (modeMerge spatial kernel balls fv2 quality epsilon iter_cap merge_range
        check_step ident_dist).iters ≤ iter_cap ∧
      (manifold spatial gauss eig degrees fv3 quality epsilon iter_cap
        always_hessian).2 ≤ iter_cap :=
  ⟨modeGo_iters_le spatial kernel quality epsilon iter_cap fv,
   modeMergeGo_iters_le spatial kernel quality epsilon merge_range ident_dist
     check_step iter_cap 0 fv2 balls,
   manifoldGo_iters_le spatial gauss eig degrees quality epsilon always_hessian
     _ iter_cap fv3⟩

/-- Claim C2: `mode_merge` always returns a non-negative index: if a periodic
check finds the current point within `merge_range` of an existing
representative it returns the index of that representative, set unchanged;
otherwise — converging by `epsilon` or exhausting `iter_cap` — it inserts a new
representative at the final point and returns that new index. -/
theorem C2_modeMerge_hit_or_insert {n : ℕ} (spatial : Spatial n)
    (kernel : Kernel) (balls : Balls n) (fv : FV n) (quality epsilon : ℚ)
    (iter_cap : ℕ) (merge_range : ℚ) (check_step : ℕ) (ident_dist : ℚ) :
    0 ≤ (modeMerge spatial kernel balls fv quality epsilon iter_cap merge_range
        check_step ident_dist).index ∧
      (((modeMerge spatial kernel balls fv quality epsilon iter_cap merge_range
            check_step ident_dist).balls = balls ∧
          ∃ i : ℕ, (modeMerge spatial kernel balls fv quality epsilon iter_cap
              merge_range check_step ident_dist).index = (i : ℤ) ∧
            ∃ b, balls[i]? = some b ∧
              sqDist (modeMerge spatial kernel balls fv quality epsilon iter_cap
                merge_range check_step ident_dist).fv b.center ≤ merge_range ^ 2) ∨
        ((modeMerge spatial kernel balls fv quality epsilon iter_cap merge_range
            check_step ident_dist).index = (balls.length : ℤ) ∧
          (modeMerge spatial kernel balls fv quality epsilon iter_cap merge_range
              check_step ident_dist).balls =
            balls ++ [⟨(modeMerge spatial kernel balls fv quality epsilon iter_cap
              merge_range check_step ident_dist).fv, ident_dist⟩])) := by
  refine ⟨(modeMerge_index_lt spatial kernel balls fv quality epsilon iter_cap
    merge_range check_step ident_dist).1, ?_⟩
  simp only [modeMerge]
  exact modeMergeGo_spec spatial kernel quality epsilon merge_range ident_dist
    check_step iter_cap 0 fv balls

/-- Claim C3: over `N` exemplars and an empty representative set, `cluster`
produces an output array of representative indices parallel to the exemplars
(length `N`), and the representative set afterwards holds at most `N`
representatives. -/
theorem C3_cluster_parallel_out_at_most_N {n : ℕ} (spatial : Spatial n)
    (kernel : Kernel) (quality epsilon : ℚ) (iter_cap : ℕ)
    (ident_dist merge_range : ℚ) (check_step : ℕ) :
    (cluster spatial kernel [] quality epsilon iter_cap ident_dist merge_range
        check_step).1.length = spatial.exemplars.length ∧
      (cluster spatial kernel [] quality epsilon iter_cap ident_dist merge_range
        check_step).2.length ≤ spatial.exemplars.length := by
  constructor
  · exact clusterGo_out_length spatial kernel quality epsilon merge_range
      ident_dist iter_cap check_step spatial.exemplars []
  · simpa using clusterGo_balls_le spatial kernel quality epsilon merge_range
      ident_dist iter_cap check_step spatial.exemplars []

/-- Claim C4: `prob` is never negative (under the external contracts that the
kernel profile, the exemplar weights and the normalising constant are
nonnegative); when the range query at the quality-interpolated radius finds no
exemplars it returns exactly 0; and otherwise it returns `norm` times the sum,
over the found exemplars, of kernel value at distance times exemplar weight. -/
theorem C4_prob_nonneg_zero_on_empty {n : ℕ} (spatial : Spatial n)
    (kernel : Kernel) (fv : FV n) (norm quality : ℚ) (hnorm : 0 ≤ norm)
    (hw : ∀ e ∈ spatial.exemplars, 0 ≤ e.weight)
    (hk : ∀ d, 0 ≤ kernel.value d) :
    0 ≤ prob spatial kernel fv norm quality ∧
      (rangeQuery spatial fv (kernel.range quality) = [] →
        prob spatial kernel fv norm quality = 0) ∧
      prob spatial kernel fv norm quality =
        norm * ((rangeQuery spatial fv (kernel.range quality)).map
          (fun e => kernel.value (sqDist e.pos fv) * e.weight)).sum := by
  refine ⟨?_, ?_, rfl⟩
  · apply mul_nonneg hnorm
    apply List.sum_nonneg
    intro x hx
    obtain ⟨e, he, rfl⟩ := List.mem_map.mp hx
    have hmem : e ∈ spatial.exemplars := List.mem_of_mem_filter he
    exact mul_nonneg (hk _) (hw e hmem)
  · intro hempty
    simp [prob, hempty]

/-- Claim C4 witness. -/
theorem C4_witness :
    0 ≤ (1 : ℚ) ∧ (∀ e ∈ spat1.exemplars, 0 ≤ e.weight) ∧
      (∀ d, 0 ≤ kern1.value d) ∧ 0 ≤ prob spat1 kern1 zfv 1 1 :=
  ⟨by norm_num, by simp [spat1], fun d => by simp [kern1],
   (C4_prob_nonneg_zero_on_empty spat1 kern1 zfv 1 1 (by norm_num)
     (by simp [spat1]) (fun d => by simp [kern1])).1⟩

/-- Claim C5: `draw` is deterministic — its output depends only on the RNG key
and the supplied index; two calls with identical key and index agree exactly,
with no dependence on the mutable counter position of the RNG state. -/
theorem C5_draw_deterministic {n : ℕ} (dm : List (Exemplar n))
    (ksample : ℕ → FV n) (s1 s2 : PhiloxRNG) (index : ℕ)
    (hkey : s1.key = s2.key) :
    draw dm ksample s1 index = draw dm ksample s2 index := by
  unfold draw
  rw [hkey]

/-- Claim C5 witness: two RNG states sharing a key but at different counter
positions draw identically. -/
theorem C5_witness :
    (PhiloxRNG.mk 7 0).key = (PhiloxRNG.mk 7 123).key ∧
      draw spat1.exemplars (fun _ _ => 0) (PhiloxRNG.mk 7 0) 5 =
        draw spat1.exemplars (fun _ _ => 0) (PhiloxRNG.mk 7 123) 5 :=
  ⟨rfl, C5_draw_deterministic spat1.exemplars (fun _ _ => 0)
    (PhiloxRNG.mk 7 0) (PhiloxRNG.mk 7 123) 5 rfl⟩

/-- Claim C6: `assign_cluster` runs the mode walk to convergence and returns
-1 exactly when the final point lies outside the radius of every representative,
and the index of a representative containing the final point otherwise. -/
theorem C6_assignCluster_result {n : ℕ} (spatial : Spatial n) (kernel : Kernel)
    (balls : Balls n) (fv : FV n) (quality epsilon : ℚ)
    (iter_cap check_step : ℕ) :
    (assignCluster spatial kernel balls fv quality epsilon iter_cap
        check_step).fv = (mode spatial kernel fv quality epsilon iter_cap).1 ∧
      ((assignCluster spatial kernel balls fv quality epsilon iter_cap
          check_step).index = -1 ↔
        ∀ b ∈ balls, ¬ sqDist (assignCluster spatial kernel balls fv quality
          epsilon iter_cap check_step).fv b.center ≤ b.radius ^ 2) ∧
      (∀ i : ℕ, (assignCluster spatial kernel balls fv quality epsilon iter_cap
          check_step).index = (i : ℤ) →
        ∃ b, balls[i]? = some b ∧ sqDist (assignCluster spatial kernel balls fv
          quality epsilon iter_cap check_step).fv b.center ≤ b.radius ^ 2) := by
  unfold assignCluster
  cases h : firstContaining (mode spatial kernel fv quality epsilon iter_cap).1 balls with
  | none =>
    simp only [h]
    refine ⟨by simp, ?_, ?_⟩
    · simp only [iff_true_intro rfl, true_iff]
      intro b hb hcont
      have : (firstContaining (mode spatial kernel fv quality epsilon iter_cap).1
          balls).isSome := by
        rw [firstContaining_isSome_iff]
        exact ⟨b, hb, hcont⟩
      rw [h] at this
      simp at this
    · intro i hi
      simp at hi
  | some j =>
    simp only [h]
    refine ⟨by simp, ?_, ?_⟩
    · constructor
      · intro hcontra
        simp at hcontra
      · intro hall
        obtain ⟨b, hget, hcont⟩ := firstContaining_some _ balls j h
        have hmem : b ∈ balls := by
          have := List.getElem?_eq_some_iff.mp hget
          obtain ⟨hlt, hgb⟩ := this
          exact hgb ▸ List.getElem_mem hlt
        exact absurd hcont (hall b hmem)
    · intro i hi
      have hij : i = j := by
        have : (j : ℤ) = (i : ℤ) := hi
        exact_mod_cast this.symm
      subst hij
      exact firstContaining_some _ balls i h

/-- Claim C6 witness: with no representatives the final point of the walk is
contained in none, and -1 is returned. -/
theorem C6_witness :
    (assignCluster spat1 kern1 [] zfv 1 1 1 1).fv =
        (mode spat1 kern1 zfv 1 1 1).1 ∧
      ((assignCluster spat1 kern1 [] zfv 1 1 1 1).index = -1 ↔
        ∀ b ∈ ([] : Balls 1), ¬ sqDist (assignCluster spat1 kern1 [] zfv 1 1 1
          1).fv b.center ≤ b.radius ^ 2) ∧
      (∀ i : ℕ, (assignCluster spat1 kern1 [] zfv 1 1 1 1).index = (i : ℤ) →
        ∃ b, ([] : Balls 1)[i]? = some b ∧ sqDist (assignCluster spat1 kern1 []
          zfv 1 1 1 1).fv b.center ≤ b.radius ^ 2) :=
  C6_assignCluster_result spat1 kern1 [] zfv 1 1 1 1

/-- Claim C7: `assign_cluster` never mutates the representative set — the set
after the call is exactly the set before it. -/
theorem C7_assignCluster_read_only {n : ℕ} (spatial : Spatial n)
    (kernel : Kernel) (balls : Balls n) (fv : FV n) (quality epsilon : ℚ)
    (iter_cap check_step : ℕ) :
    (assignCluster spatial kernel balls fv quality epsilon iter_cap
      check_step).balls = balls := by
  unfold assignCluster
  cases h : firstContaining (mode spatial kernel fv quality epsilon iter_cap).1 balls <;>
    simp [h]

/-- Claim C8: `kl_divergence` surfaces the raw average of
`log (prob_P x / max (prob_Q x) limit)` unmodified and is never clamped to
zero: with P half as dense as Q at the single exemplar of P, the value returned is
the (negative) logarithm of one half. -/
theorem C8_kl_divergence_can_be_negative (lg : ℚ → ℚ)
    (hlg : ∀ x, x < 1 → lg x < 0) :
    kl_divergence lg spat1 kern1 1 1 spat2 kern1 1 1 (1/2) 0 ⟨0, 0⟩ = lg (1/2) ∧
      kl_divergence lg spat1 kern1 1 1 spat2 kern1 1 1 (1/2) 0 ⟨0, 0⟩ < 0 := by
  have heq : kl_divergence lg spat1 kern1 1 1 spat2 kern1 1 1 (1/2) 0 ⟨0, 0⟩ = lg (1/2) := by
    simp [kl_divergence, subsampleIdx, prob, rangeQuery, spat1, spat2, kern1, sqDist,
      List.range_succ, List.filter]
    norm_num
  exact ⟨heq, heq ▸ hlg (1/2) (by norm_num)⟩

/-- Claim C8 witness: the estimator applied with a logarithm stand-in that is
negative below one returns a negative value at the concrete instance. -/
theorem C8_witness :
    (∀ x : ℚ, x < 1 → (fun y : ℚ => y - 1) x < 0) ∧
      kl_divergence (fun y : ℚ => y - 1) spat1 kern1 1 1 spat2 kern1 1 1 (1/2) 0 ⟨0, 0⟩ < 0 :=
  ⟨fun x hx => by simpa using sub_neg.mpr hx,
   (C8_kl_divergence_can_be_negative (fun y : ℚ => y - 1)
     (fun x hx => by simpa using sub_neg.mpr hx)).2⟩

/-- Claim C9: `manifold` with `degrees = 0` converges to the same point as
`mode` — for any kernel profile (in particular the unit isotropic Gaussian the
C code fixes) and any orthonormal eigensolver, given identical data, the same
starting point, `epsilon` and `iter_cap`, the two results coincide exactly,
iteration count included. -/
theorem C9_manifold_degrees_zero_eq_mode {n : ℕ} (spatial : Spatial n)
    (gauss : Kernel)
    (eig : Matrix (Fin n) (Fin n) ℚ → (Fin n → ℚ) × Matrix (Fin n) (Fin n) ℚ)
    (fv : FV n) (quality epsilon : ℚ) (iter_cap : ℕ) (always_hessian : Bool)
    (heig : ∀ H, ((eig H).2).transpose * (eig H).2 = 1) :
    manifold spatial gauss eig 0 fv quality epsilon iter_cap always_hessian =
      mode spatial gauss fv quality epsilon iter_cap := by
  unfold manifold mode
  exact manifoldGo_degrees_zero spatial gauss eig quality epsilon always_hessian _
    heig (scmsProj_degrees_zero _ _ (heig _)) iter_cap fv

/-- Claim C9 witness: a concrete orthonormal eigensolver in dimension one, on
which the manifold projection with zero degrees agrees with `mode`. -/
theorem C9_witness :
    (∀ H, ((eigId H).2).transpose * (eigId H).2 = 1) ∧
      manifold spat1 kern1 eigId 0 zfv 1 1 3 true = mode spat1 kern1 zfv 1 1 3 :=
  ⟨fun H => by simp [eigId],
   C9_manifold_degrees_zero_eq_mode spat1 kern1 eigId zfv 1 1 3 true
     (fun H => by simp [eigId])⟩

/-- Claim C10: starting from the required empty representative set, every
entry of the output array of `cluster` is a non-negative index of a representative
present in the final set — hence of one created during that same call. -/
theorem C10_cluster_out_indices_valid {n : ℕ} (spatial : Spatial n)
    (kernel : Kernel) (quality epsilon : ℚ) (iter_cap : ℕ)
    (ident_dist merge_range : ℚ) (check_step : ℕ) :
    ∀ j : Fin (cluster spatial kernel [] quality epsilon iter_cap ident_dist
        merge_range check_step).1.length,
      0 ≤ (cluster spatial kernel [] quality epsilon iter_cap ident_dist
          merge_range check_step).1.get j ∧
        (cluster spatial kernel [] quality epsilon iter_cap ident_dist
          merge_range check_step).1.get j <
          ((cluster spatial kernel [] quality epsilon iter_cap ident_dist
            merge_range check_step).2.length : ℤ) := by
  intro j
  exact clusterGo_out_valid spatial kernel quality epsilon merge_range ident_dist
    iter_cap check_step spatial.exemplars [] _ (List.get_mem _ j.1 j.2)

end MeanShift
